import Mathlib

/-!
# PascalX `hpstats.cpp`: high precision statistics kernels

A shallow embedding of the nine exported functions of `src/python/hpstats.cpp`.

The functions are thin compositions of Boost.Multiprecision arithmetic and Boost.Math
distribution routines.  Those routines are not part of the repository, so the embedding takes
them as a parameter: a record of operations over a carrier `R` of numeric values.  The program
text is translated once, generically over that record, and every property is then established for
a stated instance of the record:

* `exactStats`  : real numbers, every operation exact (the mathematical CDF and quantile);
* `extArith`    : real numbers together with the special values `+inf`, `-inf`, `nan`, every
                  operation exact on finite values (used for the Cauchy combination);
* `roundedStats`: real numbers, every operation followed by rounding to nearest with a given
                  number of significand bits (used for the statements about lost precision).
-/

open Real MeasureTheory ProbabilityTheory Set Filter Topology

namespace PascalX

/-! ## The library interface -/

/-- Operations of one precision tier that `cauchytest_100d` uses.  `R` is the carrier of numeric
values (native doubles and tier values alike). -/
structure Arith (R : Type) where
  /-- the conversion `cpp_bin_float_100(x)` of a native double -/
  widen : R → R
  /-- the conversion `.convert_to<double>()` -/
  narrow : R → R
  /-- the literal `0` -/
  zero : R
  /-- the native literal `0.5` -/
  half : R
  /-- the operator `+` of the tier -/
  add : R → R → R
  /-- the operator `-` of the tier -/
  sub : R → R → R
  /-- the operator `*` of the tier -/
  mul : R → R → R
  /-- the operator `/` of the tier -/
  div : R → R → R
  /-- the function `tan` of the tier -/
  tan : R → R
  /-- the function `atan` of the tier -/
  atan : R → R
  /-- the constant `pi<T>()` -/
  pi : R

/-- Operations of one precision tier that the chi-squared and normal functions use.  The
distribution routines can raise a domain or overflow fault, which the code does not catch: they
return `none` in that case. -/
structure Stats (R : Type) where
  /-- the conversion `T(x)` of a native double -/
  widen : R → R
  /-- the conversion `.convert_to<double>()` -/
  narrow : R → R
  /-- the native literal `1.` -/
  one : R
  /-- the operator `-` of the tier -/
  sub : R → R → R
  /-- the call `cdf(chi_squared_distribution<T>(dof), x)` -/
  chi2cdf : Int → R → Option R
  /-- the call `quantile(chi_squared_distribution<T>(dof), p)` -/
  chi2quantile : Int → R → Option R
  /-- the call `cdf(normal_distribution<T>(m, s), x)` -/
  normcdf : R → R → R → Option R

/-! ## The program -/

section Program

variable {R : Type}

/-- The probability `1.-x` that `invchi2cdf_1mx` hands to the quantile (native subtraction). -/
def invchi2cdf_1mx_arg (S : Stats R) (x : R) : R :=
  S.sub S.one x

/-- `double invchi2cdf_1mx(double x, int dof)`; `S` is the native double tier. -/
def invchi2cdf_1mx (S : Stats R) (x : R) (dof : Int) : Option R :=
  S.chi2quantile dof (invchi2cdf_1mx_arg S x)

/-- The local `tmp` of `invchi2cdf_1mx_128b`: both operands are widened, then subtracted. -/
def invchi2cdf_1mx_128b_tmp (S : Stats R) (x : R) : R :=
  S.sub (S.widen S.one) (S.widen x)

/-- `double invchi2cdf_1mx_128b(double x, int dof)`; `S` is the `float128` tier. -/
def invchi2cdf_1mx_128b (S : Stats R) (x : R) (dof : Int) : Option R :=
  (S.chi2quantile dof (invchi2cdf_1mx_128b_tmp S x)).map S.narrow

/-- The local `tmp` of `invchi2cdf_1mx_100d`: both operands are widened, then subtracted. -/
def invchi2cdf_1mx_100d_tmp (S : Stats R) (x : R) : R :=
  S.sub (S.widen S.one) (S.widen x)

/-- `double invchi2cdf_1mx_100d(double x, int dof)`; `S` is the `cpp_bin_float_100` tier. -/
def invchi2cdf_1mx_100d (S : Stats R) (x : R) (dof : Int) : Option R :=
  (S.chi2quantile dof (invchi2cdf_1mx_100d_tmp S x)).map S.narrow

/-- `double onemin_chi2cdf(double x, int dof)`; `S` is the native double tier. -/
def onemin_chi2cdf (S : Stats R) (x : R) (dof : Int) : Option R :=
  (S.chi2cdf dof x).map (fun c => S.sub S.one c)

/-- `double onemin_chi2cdf_100d(double x, int dof)`; `S` is the `cpp_bin_float_100` tier. -/
def onemin_chi2cdf_100d (S : Stats R) (x : R) (dof : Int) : Option R :=
  let tmp := S.widen x
  (S.chi2cdf dof tmp).map (fun c => S.narrow (S.sub (S.widen S.one) c))

/-- `double normcdf_100d(double X, double m, double s)`. -/
def normcdf_100d (S : Stats R) (X m s : R) : Option R :=
  let x := S.widen X
  (S.normcdf (S.widen m) (S.widen s) x).map S.narrow

/-- `double onemin_normcdf_100d(double X, double m, double s)`. -/
def onemin_normcdf_100d (S : Stats R) (X m s : R) : Option R :=
  let x := S.widen X
  (S.normcdf (S.widen m) (S.widen s) x).map (fun c => S.narrow (S.sub (S.widen S.one) c))

/-- One pass of the loop body of `cauchytest_100d`: `sum += tan((0.5-X)*MP)` with
`X = cpp_bin_float_100(x[i])`. -/
def cauchyStep (A : Arith R) (x : Nat → R) (MP : R) (sum : R) (i : Nat) : R :=
  let X := A.widen (x i)
  A.add sum (A.tan (A.mul (A.sub (A.widen A.half) X) MP))

/-- The value of `sum` after the loop `for(int i = 0; i < N; i++)` of `cauchytest_100d`. -/
def cauchySum (A : Arith R) (x : Nat → R) (N : Int) : R :=
  (List.range N.toNat).foldl (cauchyStep A x A.pi) A.zero

/-- `double cauchytest_100d(double* x, int N)`; the array behind the pointer is the map
`i ↦ x[i]`. -/
def cauchytest_100d (A : Arith R) (x : Nat → R) (N : Int) : R :=
  let MP := A.pi
  let sum := cauchySum A x N
  let t := A.sub (A.widen A.half) (A.div (A.atan sum) MP)
  A.narrow t

end Program

/-! ## Real numbers with special values -/

/-- Numeric values of a tier in exact arithmetic: a real number, or one of the special values
of a floating-point format. -/
inductive Ext where
  | fin (r : ℝ)
  | pinf
  | ninf
  | nan

namespace Ext

/-- Negation. -/
noncomputable def neg : Ext → Ext
  | fin a => fin (-a)
  | pinf => ninf
  | ninf => pinf
  | nan => nan

/-- Addition; opposite infinities give `nan`. -/
noncomputable def add : Ext → Ext → Ext
  | fin a, fin b => fin (a + b)
  | fin _, pinf => pinf
  | fin _, ninf => ninf
  | pinf, fin _ => pinf
  | pinf, pinf => pinf
  | ninf, fin _ => ninf
  | ninf, ninf => ninf
  | _, _ => nan

/-- Subtraction. -/
noncomputable def sub (a b : Ext) : Ext := add a (neg b)

/-- The product of a real `a` with an infinity (`+inf` when `positive`, else `-inf`): the
infinity of the resulting sign, `nan` for `a = 0`. -/
noncomputable def signedInf (a : ℝ) (positive : Bool) : Ext :=
  if a = 0 then nan
  else if 0 < a then (if positive then pinf else ninf)
  else (if positive then ninf else pinf)

/-- Multiplication; zero times an infinity gives `nan`. -/
noncomputable def mul : Ext → Ext → Ext
  | fin a, fin b => fin (a * b)
  | fin a, pinf => signedInf a true
  | fin a, ninf => signedInf a false
  | pinf, fin b => signedInf b true
  | ninf, fin b => signedInf b false
  | pinf, pinf => pinf
  | ninf, ninf => pinf
  | pinf, ninf => ninf
  | ninf, pinf => ninf
  | _, _ => nan

/-- Division; a nonzero real over zero is an infinity, a real over an infinity is zero. -/
noncomputable def div : Ext → Ext → Ext
  | fin a, fin b => if b = 0 then signedInf a true else fin (a / b)
  | fin _, pinf => fin 0
  | fin _, ninf => fin 0
  | pinf, fin b => if 0 ≤ b then pinf else ninf
  | ninf, fin b => if 0 ≤ b then ninf else pinf
  | _, _ => nan

/-- Modelled from the spec: the tangent of the tier.  At a pole (an odd multiple of `π/2`) the
term is a true signed infinity, with the sign of the sine there. -/
noncomputable def tan : Ext → Ext
  | fin y => if Real.cos y = 0 then (if 0 < Real.sin y then pinf else ninf) else fin (Real.tan y)
  | _ => nan

/-- Modelled from the spec: the arctangent of the tier; it saturates to `±π/2` at a signed
infinity. -/
noncomputable def atan : Ext → Ext
  | fin y => fin (Real.arctan y)
  | pinf => fin (π / 2)
  | ninf => fin (-(π / 2))
  | nan => nan

end Ext

/-- Modelled from the spec: the extended tier in exact arithmetic with special values.  Every
operation is the exact real one on finite values, the conversions from and to a native double
lose nothing. -/
noncomputable def extArith : Arith Ext where
  widen := id
  narrow := id
  zero := Ext.fin 0
  half := Ext.fin (1 / 2)
  add := Ext.add
  sub := Ext.sub
  mul := Ext.mul
  div := Ext.div
  tan := Ext.tan
  atan := Ext.atan
  pi := Ext.fin π

/-- The angle `(0.5 - p) * π` of the tangent term for a real entry `p`. -/
noncomputable def cauchyAngle (p : ℝ) : ℝ := (1 / 2 - p) * π

/-- The array `[1e-10, 0.5, 0.5, 0.5, 0.5]` of the tail dominance scenario. -/
noncomputable def tailScenario : ℕ → ℝ := fun i => if i = 0 then 1e-10 else 1 / 2

/-- The array `[0.5, 0, 0.25]`. -/
noncomputable def zeroScenario : ℕ → ℝ :=
  fun i => if i = 1 then 0 else if i = 0 then 1 / 2 else 1 / 4

/-- The array `[0.5, 1, 0.25]`. -/
noncomputable def oneScenario : ℕ → ℝ :=
  fun i => if i = 1 then 1 else if i = 0 then 1 / 2 else 1 / 4

/-! ## Exact arithmetic: the distributions -/

/-- The chi-squared distribution with `dof` degrees of freedom: the gamma distribution with shape
`dof / 2` and rate `1 / 2`. -/
noncomputable def chi2Measure (dof : ℤ) : Measure ℝ :=
  gammaMeasure ((dof : ℝ) / 2) (1 / 2)

/-- The cumulative distribution function of the chi-squared distribution. -/
noncomputable def chi2CDF (dof : ℤ) (x : ℝ) : ℝ :=
  cdf (chi2Measure dof) x

/-- The quantile of the chi-squared distribution: the least `q ≥ 0` with `p ≤ CDF(q)`. -/
noncomputable def chi2Quantile (dof : ℤ) (p : ℝ) : ℝ :=
  sInf {q : ℝ | 0 ≤ q ∧ p ≤ chi2CDF dof q}

/-- The cumulative distribution function of the normal distribution with mean `m` and standard
deviation `s`. -/
noncomputable def normalCDF (m s x : ℝ) : ℝ :=
  cdf (gaussianReal m (Real.toNNReal (s ^ 2))) x

/-- Modelled from the spec: a tier in exact arithmetic.  Conversions lose nothing, the
subtraction is the real one, and the distribution routines return the mathematical value.  The routines fault (`none`) where the
Boost.Math routines raise an error: degrees of freedom that are not positive, a negative
argument of the chi-squared CDF, a probability outside `[0,1)` for the quantile (at `1` the
quantile overflows), a standard deviation that is not positive. -/
noncomputable def exactStats : Stats ℝ where
  widen := id
  narrow := id
  one := 1
  sub := fun a b => a - b
  chi2cdf := fun dof x => if 0 < dof ∧ 0 ≤ x then some (chi2CDF dof x) else none
  chi2quantile := fun dof p =>
    if 0 < dof ∧ 0 ≤ p ∧ p < 1 then some (chi2Quantile dof p) else none
  normcdf := fun m s x => if 0 < s then some (normalCDF m s x) else none

/-! ## Rounded arithmetic -/

section Rounding

variable {K : Type} [LinearOrderedField K] [FloorRing K]

/-- Rounding to the nearest integer, a tie going to the even neighbour. -/
def roundEven (r : K) : ℤ :=
  if r - ⌊r⌋ < 1 / 2 then ⌊r⌋
  else if 1 / 2 < r - ⌊r⌋ then ⌊r⌋ + 1
  else if ⌊r⌋ % 2 = 0 then ⌊r⌋ else ⌊r⌋ + 1

/-- The exponent of the unit in the last place around `q`, for a binary format with `prec`
significand bits whose values are the multiples of `2 ^ emin` at the bottom of its range. -/
def ulpExp (prec : ℕ) (emin : ℤ) (q : K) : ℤ :=
  max (Int.log 2 |q| - ((prec : ℤ) - 1)) emin

/-- Rounding to nearest, ties to even, in the binary format with `prec` significand bits and
least unit `2 ^ emin`.  The format is not bounded above. -/
def roundTo (prec : ℕ) (emin : ℤ) (q : K) : K :=
  (roundEven (q / 2 ^ ulpExp prec emin q) : K) * 2 ^ ulpExp prec emin q

end Rounding

/-- The values of a native double (IEEE 754 binary64: 53 significand bits, least unit
`2 ^ (-1074)`): the numbers that rounding leaves alone. -/
def IsDouble (x : ℝ) : Prop := roundTo 53 (-1074) x = x

/-- Modelled from the spec: a precision tier with `prec` significand bits.  Widening a double is
exact, narrowing rounds to the nearest double, the subtraction and the distribution routines
return the exact result rounded to nearest in the tier's format. -/
noncomputable def roundedStats (prec : ℕ) (emin : ℤ) : Stats ℝ where
  widen := id
  narrow := roundTo 53 (-1074)
  one := 1
  sub := fun a b => roundTo prec emin (a - b)
  chi2cdf := fun dof x => (exactStats.chi2cdf dof x).map (roundTo prec emin)
  chi2quantile := fun dof p => (exactStats.chi2quantile dof p).map (roundTo prec emin)
  normcdf := fun m s x => (exactStats.normcdf m s x).map (roundTo prec emin)

/-- Modelled from the spec: the native double tier, IEEE 754 binary64. -/
noncomputable def binary64 : Stats ℝ := roundedStats 53 (-1074)

/-- Modelled from the spec: the quad tier `float128`, IEEE 754 binary128 with 113 significand
bits. -/
noncomputable def binary128 : Stats ℝ := roundedStats 113 (-16494)

/-- Modelled from the spec: the extended tier `cpp_bin_float_100`, about 100 decimal digits: a
binary significand of 334 bits.  The bottom of its exponent range lies far below every magnitude
that occurs here. -/
noncomputable def bin100 : Stats ℝ := roundedStats 334 (-2147483313)

/-! ## The Cauchy combination in exact arithmetic -/

lemma cauchyStep_ext (p : ℕ → ℝ) (s : Ext) (i : ℕ) :
    cauchyStep extArith (fun j => Ext.fin (p j)) (Ext.fin π) s i
      = Ext.add s (Ext.tan (Ext.fin (cauchyAngle (p i)))) := by
  simp [cauchyStep, extArith, Ext.sub, Ext.neg, Ext.add, Ext.mul, cauchyAngle, sub_eq_add_neg]

lemma cos_cauchyAngle (p : ℝ) : Real.cos (cauchyAngle p) = Real.sin (p * π) := by
  have : cauchyAngle p = π / 2 - p * π := by unfold cauchyAngle; ring
  rw [this, Real.cos_pi_div_two_sub]

lemma sin_cauchyAngle (p : ℝ) : Real.sin (cauchyAngle p) = Real.cos (p * π) := by
  have : cauchyAngle p = π / 2 - p * π := by unfold cauchyAngle; ring
  rw [this, Real.sin_pi_div_two_sub]

lemma cos_cauchyAngle_ne_zero {p : ℝ} (h : ∀ n : ℤ, p ≠ n) : Real.cos (cauchyAngle p) ≠ 0 := by
  rw [cos_cauchyAngle]
  intro h0
  obtain ⟨n, hn⟩ := Real.sin_eq_zero_iff.mp h0
  exact h n (mul_right_cancel₀ Real.pi_ne_zero hn).symm

lemma not_int_of_mem_Ioo {p : ℝ} (h0 : 0 < p) (h1 : p < 1) : ∀ n : ℤ, p ≠ n := by
  intro n hn
  rw [hn] at h0 h1
  have h0' : 0 < n := by exact_mod_cast h0
  have h1' : n < 1 := by exact_mod_cast h1
  omega

lemma tan_ext_of_not_int {p : ℝ} (h : ∀ n : ℤ, p ≠ n) :
    Ext.tan (Ext.fin (cauchyAngle p)) = Ext.fin (Real.tan (cauchyAngle p)) := by
  simp [Ext.tan, cos_cauchyAngle_ne_zero h]

lemma tan_ext_zero : Ext.tan (Ext.fin (cauchyAngle 0)) = Ext.pinf := by
  simp [Ext.tan, cos_cauchyAngle, sin_cauchyAngle]

lemma tan_ext_one : Ext.tan (Ext.fin (cauchyAngle 1)) = Ext.ninf := by
  simp [Ext.tan, cos_cauchyAngle, sin_cauchyAngle]

lemma cauchySum_ext_succ (p : ℕ → ℝ) (n : ℕ) :
    cauchySum extArith (fun j => Ext.fin (p j)) ((n + 1 : ℕ) : ℤ)
      = Ext.add (cauchySum extArith (fun j => Ext.fin (p j)) (n : ℤ))
          (Ext.tan (Ext.fin (cauchyAngle (p n)))) := by
  simp only [cauchySum, Int.toNat_ofNat, List.range_succ, List.foldl_append, List.foldl_cons,
    List.foldl_nil]
  exact cauchyStep_ext p _ n

lemma cauchySum_ext_zero (p : ℕ → ℝ) :
    cauchySum extArith (fun j => Ext.fin (p j)) ((0 : ℕ) : ℤ) = Ext.fin 0 := by
  simp [cauchySum, extArith]

/-- Without a pole among the first `n` entries the loop computes the real sum of the tangents. -/
lemma cauchySum_ext_fin (p : ℕ → ℝ) (n : ℕ) (h : ∀ i < n, ∀ k : ℤ, p i ≠ k) :
    cauchySum extArith (fun j => Ext.fin (p j)) (n : ℤ)
      = Ext.fin (∑ i in Finset.range n, Real.tan (cauchyAngle (p i))) := by
  induction n with
  | zero => simpa using cauchySum_ext_zero p
  | succ n ih =>
    rw [cauchySum_ext_succ, ih (fun i hi => h i (Nat.lt_succ_of_lt hi)),
      tan_ext_of_not_int (h n (Nat.lt_succ_self n)), Finset.sum_range_succ]
    rfl

lemma cauchySum_toNat {R : Type} (A : Arith R) (x : ℕ → R) (N : ℤ) :
    cauchySum A x N = cauchySum A x (N.toNat : ℤ) := by
  simp only [cauchySum, Int.toNat_ofNat]

/-- The result of `cauchytest_100d` for a finite value of `sum`. -/
lemma cauchytest_ext_of_sum_fin (x : ℕ → Ext) (N : ℤ) (s : ℝ)
    (h : cauchySum extArith x N = Ext.fin s) :
    cauchytest_100d extArith x N = Ext.fin (1 / 2 - Real.arctan s / π) := by
  simp only [cauchytest_100d]
  rw [h]
  simp [extArith, Ext.atan, Ext.div, Ext.sub, Ext.neg, Ext.add, Real.pi_ne_zero, sub_eq_add_neg]

lemma cauchytest_ext_of_sum_pinf (x : ℕ → Ext) (N : ℤ)
    (h : cauchySum extArith x N = Ext.pinf) :
    cauchytest_100d extArith x N = Ext.fin 0 := by
  have hpi : π / 2 / π = 1 / 2 := by field_simp; ring
  simp only [cauchytest_100d]
  rw [h]
  simp [extArith, Ext.atan, Ext.div, Ext.sub, Ext.neg, Ext.add, Real.pi_ne_zero, hpi]

lemma cauchytest_ext_of_sum_ninf (x : ℕ → Ext) (N : ℤ)
    (h : cauchySum extArith x N = Ext.ninf) :
    cauchytest_100d extArith x N = Ext.fin 1 := by
  have hpi : -(π / 2) / π = -(1 / 2) := by field_simp; ring
  simp only [cauchytest_100d]
  rw [h]
  simp [extArith, Ext.atan, Ext.div, Ext.sub, Ext.neg, Ext.add, Real.pi_ne_zero, hpi]
  norm_num

lemma cauchyAngle_mem_Ioo {p : ℝ} (h0 : 0 < p) (h1 : p < 1) :
    -(π / 2) < cauchyAngle p ∧ cauchyAngle p < π / 2 := by
  unfold cauchyAngle
  constructor <;> nlinarith [Real.pi_pos]

lemma cauchyAngle_half : cauchyAngle (1 / 2) = 0 := by
  simp [cauchyAngle]

/-- The combined value when the `N` entries are real numbers, none of them an integer. -/
lemma cauchytest_ext_fin (x : ℕ → ℝ) (N : ℤ) (h : ∀ i : ℕ, (i : ℤ) < N → ∀ k : ℤ, x i ≠ k) :
    cauchytest_100d extArith (fun j => Ext.fin (x j)) N
      = Ext.fin (1 / 2 - Real.arctan (∑ i in Finset.range N.toNat,
          Real.tan (cauchyAngle (x i))) / π) := by
  apply cauchytest_ext_of_sum_fin
  rw [cauchySum_toNat]
  exact cauchySum_ext_fin x N.toNat (fun i hi => h i (Int.lt_toNat.mp hi))

/-- One entry `p` in `(0,1)` followed by entries `0.5` combines to `p`. -/
lemma cauchytest_ext_dominant (x : ℕ → ℝ) (n : ℕ) (h0 : 0 < x 0) (h1 : x 0 < 1)
    (hrest : ∀ i : ℕ, 1 ≤ i → i < n + 1 → x i = 1 / 2) :
    cauchytest_100d extArith (fun j => Ext.fin (x j)) ((n + 1 : ℕ) : ℤ) = Ext.fin (x 0) := by
  have hni : ∀ i : ℕ, (i : ℤ) < ((n + 1 : ℕ) : ℤ) → ∀ k : ℤ, x i ≠ k := by
    intro i hi
    have hi' : i < n + 1 := by exact_mod_cast hi
    rcases Nat.eq_zero_or_pos i with rfl | hpos
    · exact not_int_of_mem_Ioo h0 h1
    · rw [hrest i hpos hi']
      exact not_int_of_mem_Ioo (by norm_num) (by norm_num)
  rw [cauchytest_ext_fin x _ hni, Int.toNat_ofNat, Finset.sum_range_succ']
  have hz : ∑ i in Finset.range n, Real.tan (cauchyAngle (x (i + 1))) = 0 := by
    apply Finset.sum_eq_zero
    intro i hi
    rw [hrest (i + 1) (Nat.succ_le_succ (Nat.zero_le i))
      (Nat.succ_lt_succ (Finset.mem_range.mp hi)), cauchyAngle_half, Real.tan_zero]
  rw [hz, zero_add, Real.arctan_tan (cauchyAngle_mem_Ioo h0 h1).1 (cauchyAngle_mem_Ioo h0 h1).2]
  congr 1
  unfold cauchyAngle
  field_simp
  ring

/-- C1. Single-input identity: for a one-element array `[p]` with `0 < p < 1` the function
`cauchytest_100d` returns `p` in exact arithmetic. -/
theorem cauchytest_100d_single (x : ℕ → ℝ) (h0 : 0 < x 0) (h1 : x 0 < 1) :
    cauchytest_100d extArith (fun j => Ext.fin (x j)) 1 = Ext.fin (x 0) := by
  have h := cauchytest_ext_dominant x 0 h0 h1 (fun i hi hi' => absurd hi' (by omega))
  simpa using h

theorem cauchytest_100d_single_witness :
    cauchytest_100d extArith (fun j => Ext.fin ((fun _ => 1 / 4 : ℕ → ℝ) j)) 1
      = Ext.fin (1 / 4) :=
  cauchytest_100d_single (fun _ => 1 / 4) (by norm_num) (by norm_num)

/-- C2. Symmetry: for every `N`, an array whose `N` entries all equal `0.5` combines to exactly
`0.5`: every tangent term is `0`, so is the sum, and `t = 0.5 - atan(0)/π = 0.5`. -/
theorem cauchytest_100d_all_half (x : ℕ → ℝ) (N : ℤ)
    (h : ∀ i : ℕ, (i : ℤ) < N → x i = 1 / 2) :
    cauchySum extArith (fun j => Ext.fin (x j)) N = Ext.fin 0 ∧
      cauchytest_100d extArith (fun j => Ext.fin (x j)) N = Ext.fin (1 / 2) := by
  have hni : ∀ i : ℕ, (i : ℤ) < N → ∀ k : ℤ, x i ≠ k := by
    intro i hi
    rw [h i hi]
    exact not_int_of_mem_Ioo (by norm_num) (by norm_num)
  have hz : ∑ i in Finset.range N.toNat, Real.tan (cauchyAngle (x i)) = 0 := by
    apply Finset.sum_eq_zero
    intro i hi
    rw [h i (Int.lt_toNat.mp (Finset.mem_range.mp hi)), cauchyAngle_half, Real.tan_zero]
  constructor
  · rw [cauchySum_toNat, cauchySum_ext_fin x N.toNat (fun i hi => hni i (Int.lt_toNat.mp hi)), hz]
  · rw [cauchytest_ext_fin x N hni, hz]
    simp

theorem cauchytest_100d_all_half_witness :
    cauchySum extArith (fun j => Ext.fin ((fun _ => 1 / 2 : ℕ → ℝ) j)) 3 = Ext.fin 0 ∧
      cauchytest_100d extArith (fun j => Ext.fin ((fun _ => 1 / 2 : ℕ → ℝ) j)) 3
        = Ext.fin (1 / 2) :=
  cauchytest_100d_all_half (fun _ => 1 / 2) 3 (fun _ _ => rfl)

lemma cauchytest_tailScenario :
    cauchytest_100d extArith (fun j => Ext.fin (tailScenario j)) 5 = Ext.fin 1e-10 := by
  have h := cauchytest_ext_dominant tailScenario 4 (by norm_num [tailScenario])
    (by norm_num [tailScenario])
    (fun i hi _ => by simp [tailScenario, Nat.one_le_iff_ne_zero.mp hi])
  simpa [tailScenario] using h

/-- C3, as stated, fails: on `[1e-10, 0.5, 0.5, 0.5, 0.5]` the result is not a value between
`5e-10` and `1e-9`. -/
theorem cauchytest_100d_tail_not_in_range :
    ¬ ∃ r : ℝ, cauchytest_100d extArith (fun j => Ext.fin (tailScenario j)) 5 = Ext.fin r ∧
      5e-10 ≤ r ∧ r ≤ 1e-9 := by
  rintro ⟨r, hr, hlo, -⟩
  rw [cauchytest_tailScenario] at hr
  have : (1e-10 : ℝ) = r := Ext.fin.inj hr
  rw [← this] at hlo
  norm_num at hlo

/-- C3, amended. Tail dominance: an array of `n + 1` entries whose first entry is `p` with
`0 < p < 1` and whose other entries are `0.5` combines to `p` itself in exact arithmetic (the
plain sum of the tangent terms is the single term of `p`); on `[1e-10, 0.5, 0.5, 0.5, 0.5]`
this is `1e-10`, which is neither `0.5` nor at least `5e-10`. -/
theorem cauchytest_100d_tail_dominance (x : ℕ → ℝ) (n : ℕ) (h0 : 0 < x 0) (h1 : x 0 < 1)
    (hrest : ∀ i : ℕ, 1 ≤ i → i < n + 1 → x i = 1 / 2) :
    cauchytest_100d extArith (fun j => Ext.fin (x j)) ((n + 1 : ℕ) : ℤ) = Ext.fin (x 0) :=
  cauchytest_ext_dominant x n h0 h1 hrest

theorem cauchytest_100d_tail_dominance_witness :
    (0 < tailScenario 0 ∧ tailScenario 0 < 1 ∧
      ∀ i : ℕ, 1 ≤ i → i < 4 + 1 → tailScenario i = 1 / 2) ∧
    cauchytest_100d extArith (fun j => Ext.fin (tailScenario j)) ((4 + 1 : ℕ) : ℤ)
      = Ext.fin (tailScenario 0) ∧ tailScenario 0 = 1e-10 ∧ tailScenario 0 < 5e-10 :=
  have h0 : 0 < tailScenario 0 := by norm_num [tailScenario]
  have h1 : tailScenario 0 < 1 := by norm_num [tailScenario]
  have hr : ∀ i : ℕ, 1 ≤ i → i < 4 + 1 → tailScenario i = 1 / 2 :=
    fun i hi _ => by simp [tailScenario, Nat.one_le_iff_ne_zero.mp hi]
  ⟨⟨h0, h1, hr⟩, cauchytest_100d_tail_dominance tailScenario 4 h0 h1 hr,
    by norm_num [tailScenario], by norm_num [tailScenario]⟩

/-! ### Entries exactly `0` or `1` -/

lemma tan_ext_of_mem_Ioo {p : ℝ} (h0 : 0 < p) (h1 : p < 1) :
    Ext.tan (Ext.fin (cauchyAngle p)) = Ext.fin (Real.tan (cauchyAngle p)) :=
  tan_ext_of_not_int (not_int_of_mem_Ioo h0 h1)

/-- Entries in `[0,1)`: the running sum is finite until the first `0`, and `+inf` from then on. -/
lemma cauchySum_ext_pinf (x : ℕ → ℝ) (n : ℕ) (h : ∀ i < n, 0 ≤ x i ∧ x i < 1) :
    (cauchySum extArith (fun j => Ext.fin (x j)) (n : ℤ) = Ext.pinf ∨
      ∃ s, cauchySum extArith (fun j => Ext.fin (x j)) (n : ℤ) = Ext.fin s) ∧
    ((∃ i < n, x i = 0) →
      cauchySum extArith (fun j => Ext.fin (x j)) (n : ℤ) = Ext.pinf) := by
  induction n with
  | zero =>
    refine ⟨Or.inr ⟨0, cauchySum_ext_zero x⟩, ?_⟩
    rintro ⟨i, hi, -⟩
    exact absurd hi (Nat.not_lt_zero i)
  | succ n ih =>
    obtain ⟨ih1, ih2⟩ := ih (fun i hi => h i (Nat.lt_succ_of_lt hi))
    rw [cauchySum_ext_succ]
    obtain ⟨hn0, hn1⟩ := h n (Nat.lt_succ_self n)
    rcases hn0.eq_or_lt with hz | hpos
    · rw [← hz, tan_ext_zero]
      have : Ext.add (cauchySum extArith (fun j => Ext.fin (x j)) (n : ℤ)) Ext.pinf
          = Ext.pinf := by
        rcases ih1 with h1 | ⟨s, h1⟩ <;> rw [h1] <;> rfl
      exact ⟨Or.inl this, fun _ => this⟩
    · rw [tan_ext_of_mem_Ioo hpos hn1]
      constructor
      · rcases ih1 with h1 | ⟨s, h1⟩
        · left; rw [h1]; rfl
        · right; rw [h1]; exact ⟨_, rfl⟩
      · rintro ⟨i, hi, hxi⟩
        have hin : i < n := by
          rcases Nat.lt_succ_iff_lt_or_eq.mp hi with hlt | heq
          · exact hlt
          · rw [heq] at hxi; exact absurd hxi (ne_of_gt hpos)
        rw [ih2 ⟨i, hin, hxi⟩]
        rfl

/-- Entries in `(0,1]`: the running sum is finite until the first `1`, and `-inf` from then on. -/
lemma cauchySum_ext_ninf (x : ℕ → ℝ) (n : ℕ) (h : ∀ i < n, 0 < x i ∧ x i ≤ 1) :
    (cauchySum extArith (fun j => Ext.fin (x j)) (n : ℤ) = Ext.ninf ∨
      ∃ s, cauchySum extArith (fun j => Ext.fin (x j)) (n : ℤ) = Ext.fin s) ∧
    ((∃ i < n, x i = 1) →
      cauchySum extArith (fun j => Ext.fin (x j)) (n : ℤ) = Ext.ninf) := by
  induction n with
  | zero =>
    refine ⟨Or.inr ⟨0, cauchySum_ext_zero x⟩, ?_⟩
    rintro ⟨i, hi, -⟩
    exact absurd hi (Nat.not_lt_zero i)
  | succ n ih =>
    obtain ⟨ih1, ih2⟩ := ih (fun i hi => h i (Nat.lt_succ_of_lt hi))
    rw [cauchySum_ext_succ]
    obtain ⟨hn0, hn1⟩ := h n (Nat.lt_succ_self n)
    rcases hn1.eq_or_lt with hz | hlt1
    · rw [hz, tan_ext_one]
      have : Ext.add (cauchySum extArith (fun j => Ext.fin (x j)) (n : ℤ)) Ext.ninf
          = Ext.ninf := by
        rcases ih1 with h1 | ⟨s, h1⟩ <;> rw [h1] <;> rfl
      exact ⟨Or.inl this, fun _ => this⟩
    · rw [tan_ext_of_mem_Ioo hn0 hlt1]
      constructor
      · rcases ih1 with h1 | ⟨s, h1⟩
        · left; rw [h1]; rfl
        · right; rw [h1]; exact ⟨_, rfl⟩
      · rintro ⟨i, hi, hxi⟩
        have hin : i < n := by
          rcases Nat.lt_succ_iff_lt_or_eq.mp hi with hlt | heq
          · exact hlt
          · rw [heq] at hxi; exact absurd hxi (ne_of_lt hlt1)
        rw [ih2 ⟨i, hin, hxi⟩]
        rfl

/-- C9. Exact `0` or `1` entries are not special-cased and saturate.  One pass of the loop on an
entry exactly `0` (resp. `1`) adds the tangent term `+inf` (resp. `-inf`) to a finite sum.  If
some entry is exactly `0` and the entries lie in `[0,1)`, the sum of the tangent terms is `+inf`
and `cauchytest_100d` returns `0`; if some entry is exactly `1` and the entries lie in `(0,1]`,
the sum is `-inf` and the function returns `1`.  The function returns these numbers through the
ordinary path, without a fault. -/
theorem cauchytest_100d_saturates (x : ℕ → ℝ) (N : ℤ) :
    (∀ (s : ℝ) (i : ℕ), (x i = 0 →
        cauchyStep extArith (fun j => Ext.fin (x j)) extArith.pi (Ext.fin s) i = Ext.pinf) ∧
      (x i = 1 →
        cauchyStep extArith (fun j => Ext.fin (x j)) extArith.pi (Ext.fin s) i = Ext.ninf)) ∧
    ((∃ i : ℕ, (i : ℤ) < N ∧ x i = 0) → (∀ i : ℕ, (i : ℤ) < N → 0 ≤ x i ∧ x i < 1) →
      cauchySum extArith (fun j => Ext.fin (x j)) N = Ext.pinf ∧
      cauchytest_100d extArith (fun j => Ext.fin (x j)) N = Ext.fin 0) ∧
    ((∃ i : ℕ, (i : ℤ) < N ∧ x i = 1) → (∀ i : ℕ, (i : ℤ) < N → 0 < x i ∧ x i ≤ 1) →
      cauchySum extArith (fun j => Ext.fin (x j)) N = Ext.ninf ∧
      cauchytest_100d extArith (fun j => Ext.fin (x j)) N = Ext.fin 1) := by
  refine ⟨fun s i => ⟨fun h => ?_, fun h => ?_⟩, ?_, ?_⟩
  · show cauchyStep extArith (fun j => Ext.fin (x j)) (Ext.fin π) (Ext.fin s) i = Ext.pinf
    rw [cauchyStep_ext, h, tan_ext_zero]
    rfl
  · show cauchyStep extArith (fun j => Ext.fin (x j)) (Ext.fin π) (Ext.fin s) i = Ext.ninf
    rw [cauchyStep_ext, h, tan_ext_one]
    rfl
  · rintro ⟨i, hi, hxi⟩ hall
    have hs : cauchySum extArith (fun j => Ext.fin (x j)) N = Ext.pinf := by
      rw [cauchySum_toNat]
      exact (cauchySum_ext_pinf x N.toNat (fun j hj => hall j (Int.lt_toNat.mp hj))).2
        ⟨i, Int.lt_toNat.mpr hi, hxi⟩
    exact ⟨hs, cauchytest_ext_of_sum_pinf _ N hs⟩
  · rintro ⟨i, hi, hxi⟩ hall
    have hs : cauchySum extArith (fun j => Ext.fin (x j)) N = Ext.ninf := by
      rw [cauchySum_toNat]
      exact (cauchySum_ext_ninf x N.toNat (fun j hj => hall j (Int.lt_toNat.mp hj))).2
        ⟨i, Int.lt_toNat.mpr hi, hxi⟩
    exact ⟨hs, cauchytest_ext_of_sum_ninf _ N hs⟩

theorem cauchytest_100d_saturates_witness :
    ((∃ i : ℕ, (i : ℤ) < 3 ∧ zeroScenario i = 0) ∧
      cauchyStep extArith (fun j => Ext.fin (zeroScenario j)) extArith.pi (Ext.fin (1 / 3)) 1
        = Ext.pinf ∧
      cauchySum extArith (fun j => Ext.fin (zeroScenario j)) 3 = Ext.pinf ∧
      cauchytest_100d extArith (fun j => Ext.fin (zeroScenario j)) 3 = Ext.fin 0) ∧
    ((∃ i : ℕ, (i : ℤ) < 3 ∧ oneScenario i = 1) ∧
      cauchyStep extArith (fun j => Ext.fin (oneScenario j)) extArith.pi (Ext.fin (1 / 3)) 1
        = Ext.ninf ∧
      cauchySum extArith (fun j => Ext.fin (oneScenario j)) 3 = Ext.ninf ∧
      cauchytest_100d extArith (fun j => Ext.fin (oneScenario j)) 3 = Ext.fin 1) :=
  have hz : ∃ i : ℕ, (i : ℤ) < 3 ∧ zeroScenario i = 0 := ⟨1, by norm_num, by simp [zeroScenario]⟩
  have ho : ∃ i : ℕ, (i : ℤ) < 3 ∧ oneScenario i = 1 := ⟨1, by norm_num, by simp [oneScenario]⟩
  ⟨⟨hz, ((cauchytest_100d_saturates zeroScenario 3).1 (1 / 3) 1).1 (by simp [zeroScenario]),
      (cauchytest_100d_saturates zeroScenario 3).2.1 hz
        (fun i _ => by unfold zeroScenario; split_ifs <;> norm_num)⟩,
    ho, ((cauchytest_100d_saturates oneScenario 3).1 (1 / 3) 1).2 (by simp [oneScenario]),
      (cauchytest_100d_saturates oneScenario 3).2.2 ho
        (fun i _ => by unfold oneScenario; split_ifs <;> norm_num)⟩

/-- C10, as stated, fails: for the one-element array `[0]` the combined value is `0`, which is
not strictly between `0` and `1`. -/
theorem cauchytest_100d_zero_entry_not_interior :
    ¬ ∃ t : ℝ, cauchytest_100d extArith (fun _ => Ext.fin 0) 1 = Ext.fin t ∧ 0 < t ∧ t < 1 := by
  rintro ⟨t, ht, hpos, -⟩
  have h0 : cauchytest_100d extArith (fun j => Ext.fin ((fun _ => 0 : ℕ → ℝ) j)) 1 = Ext.fin 0 := by
    apply cauchytest_ext_of_sum_pinf
    exact (cauchySum_ext_pinf (fun _ => 0) 1 (fun i _ => by norm_num)).2 ⟨0, by norm_num, rfl⟩
  rw [h0] at ht
  have : (0 : ℝ) = t := Ext.fin.inj ht
  exact absurd this (ne_of_lt hpos)

/-- C10, amended. For `N <= 0` the loop does not run and the result is `0.5`; for every `N` and
every array whose `N` entries are real numbers other than integers (in particular p-values in
the open interval `(0,1)`), the combined value `t = 0.5 - atan(sum)/π` is a real number with
`0 < t < 1`. -/
theorem cauchytest_100d_in_unit_interval (x : ℕ → ℝ) (N : ℤ) :
    (N ≤ 0 → cauchytest_100d extArith (fun j => Ext.fin (x j)) N = Ext.fin (1 / 2)) ∧
    ((∀ i : ℕ, (i : ℤ) < N → ∀ k : ℤ, x i ≠ k) →
      ∃ t : ℝ, cauchytest_100d extArith (fun j => Ext.fin (x j)) N = Ext.fin t ∧
        0 < t ∧ t < 1) := by
  constructor
  · intro hN
    have hni : ∀ i : ℕ, (i : ℤ) < N → ∀ k : ℤ, x i ≠ k := fun i hi => by
      have : (0 : ℤ) ≤ i := Int.natCast_nonneg i
      omega
    rw [cauchytest_ext_fin x N hni, Int.toNat_eq_zero.mpr hN]
    simp
  · intro hni
    refine ⟨_, cauchytest_ext_fin x N hni, ?_, ?_⟩
    · have h := Real.arctan_lt_pi_div_two
        (∑ i in Finset.range N.toNat, Real.tan (cauchyAngle (x i)))
      have : Real.arctan (∑ i in Finset.range N.toNat, Real.tan (cauchyAngle (x i))) / π
          < 1 / 2 := by
        rw [div_lt_iff₀ Real.pi_pos]; linarith
      linarith
    · have h := Real.neg_pi_div_two_lt_arctan
        (∑ i in Finset.range N.toNat, Real.tan (cauchyAngle (x i)))
      have : -(1 / 2) < Real.arctan (∑ i in Finset.range N.toNat,
          Real.tan (cauchyAngle (x i))) / π := by
        rw [lt_div_iff₀ Real.pi_pos]; linarith
      linarith

theorem cauchytest_100d_in_unit_interval_witness :
    (cauchytest_100d extArith (fun j => Ext.fin ((fun _ => 1 / 4 : ℕ → ℝ) j)) 0
      = Ext.fin (1 / 2)) ∧
    ((∀ i : ℕ, (i : ℤ) < 2 → ∀ k : ℤ, (fun _ => 1 / 4 : ℕ → ℝ) i ≠ k) ∧
      ∃ t : ℝ, cauchytest_100d extArith (fun j => Ext.fin ((fun _ => 1 / 4 : ℕ → ℝ) j)) 2
        = Ext.fin t ∧ 0 < t ∧ t < 1) :=
  have hni : ∀ i : ℕ, (i : ℤ) < 2 → ∀ k : ℤ, (fun _ => 1 / 4 : ℕ → ℝ) i ≠ k :=
    fun _ _ => not_int_of_mem_Ioo (by norm_num) (by norm_num)
  ⟨(cauchytest_100d_in_unit_interval (fun _ => 1 / 4) 0).1 le_rfl,
    hni, (cauchytest_100d_in_unit_interval (fun _ => 1 / 4) 2).2 hni⟩

/-! ## The chi-squared distribution in exact arithmetic -/

lemma chi2_shape_pos {dof : ℤ} (h : 1 ≤ dof) : (0 : ℝ) < (dof : ℝ) / 2 := by
  have : (1 : ℝ) ≤ dof := by exact_mod_cast h
  linarith

lemma chi2Measure_prob {dof : ℤ} (h : 1 ≤ dof) : IsProbabilityMeasure (chi2Measure dof) :=
  isProbabilityMeasureGamma (chi2_shape_pos h) (by norm_num)

lemma chi2CDF_mono (dof : ℤ) : Monotone (chi2CDF dof) := monotone_cdf _

lemma chi2CDF_strictMonoOn {dof : ℤ} (h : 1 ≤ dof) : StrictMonoOn (chi2CDF dof) (Ici 0) := by
  have hp := chi2Measure_prob h
  intro a ha b _ hab
  have hm : (cdf (chi2Measure dof)).measure (Ioc a b) = chi2Measure dof (Ioc a b) := by
    rw [measure_cdf]
  rw [StieltjesFunction.measure_Ioc] at hm
  have hmeas : Measurable (gammaPDF ((dof : ℝ) / 2) (1 / 2)) :=
    (measurable_gammaPDFReal _ _).ennreal_ofReal
  have hpos : 0 < chi2Measure dof (Ioc a b) := by
    rw [chi2Measure, gammaMeasure, withDensity_apply _ measurableSet_Ioc,
      lintegral_pos_iff_support hmeas]
    have hsub : Ioc a b ⊆ Function.support (gammaPDF ((dof : ℝ) / 2) (1 / 2)) := by
      intro t ht
      have ht0 : 0 < t := lt_of_le_of_lt ha ht.1
      simp only [Function.mem_support, gammaPDF, ne_eq, ENNReal.ofReal_eq_zero, not_le]
      exact gammaPDFReal_pos (chi2_shape_pos h) (by norm_num) ht0
    calc (0 : ENNReal) < volume (Ioc a b) := by
          rw [Real.volume_Ioc]; exact ENNReal.ofReal_pos.mpr (sub_pos.mpr hab)
      _ = volume.restrict (Ioc a b) (Ioc a b) := by
          rw [Measure.restrict_apply measurableSet_Ioc, inter_self]
      _ ≤ volume.restrict (Ioc a b) (Function.support (gammaPDF ((dof : ℝ) / 2) (1 / 2))) :=
          measure_mono hsub
  rw [← hm, ENNReal.ofReal_pos] at hpos
  unfold chi2CDF
  linarith

lemma chi2CDF_lt_one {dof : ℤ} (h : 1 ≤ dof) (x : ℝ) : chi2CDF dof x < 1 := by
  have hle : chi2CDF dof (max x 0 + 1) ≤ 1 := cdf_le_one _ _
  have hlt : chi2CDF dof (max x 0) < chi2CDF dof (max x 0 + 1) :=
    chi2CDF_strictMonoOn h (le_max_right x 0)
      (show (0 : ℝ) ≤ max x 0 + 1 by have := le_max_right x 0; linarith) (by linarith)
  have := chi2CDF_mono dof (le_max_left x 0)
  linarith

section RoundingLemmas

variable {K : Type} [LinearOrderedField K] [FloorRing K]

lemma floor_le_roundEven (r : K) : ⌊r⌋ ≤ roundEven r := by
  unfold roundEven
  split_ifs <;> omega

lemma abs_roundEven_sub_le (r : K) : |(roundEven r : K) - r| ≤ 1 / 2 := by
  have h1 : (⌊r⌋ : K) ≤ r := Int.floor_le r
  have h2 : r < ⌊r⌋ + 1 := Int.lt_floor_add_one r
  unfold roundEven
  rw [abs_le]
  split_ifs with ha hb hc
  · constructor <;> linarith
  · push_cast; constructor <;> linarith
  · have : r - ⌊r⌋ = 1 / 2 := le_antisymm (not_lt.mp hb) (not_lt.mp ha)
    constructor <;> linarith
  · have : r - ⌊r⌋ = 1 / 2 := le_antisymm (not_lt.mp hb) (not_lt.mp ha)
    push_cast; constructor <;> linarith

lemma roundEven_intCast (n : ℤ) : roundEven (n : K) = n := by
  unfold roundEven
  simp

omit [FloorRing K] in
lemma two_zpow_pos (e : ℤ) : (0 : K) < 2 ^ e := zpow_pos (by norm_num) e

lemma roundTo_zero (prec : ℕ) (emin : ℤ) : roundTo prec emin (0 : K) = 0 := by
  unfold roundTo
  simp [roundEven]

/-- The rounding error is at most half a unit in the last place. -/
lemma abs_roundTo_sub_le (prec : ℕ) (emin : ℤ) (q : K) :
    |roundTo prec emin q - q| ≤ 2 ^ ulpExp prec emin q / 2 := by
  have hu := two_zpow_pos (K := K) (ulpExp prec emin q)
  have h := abs_roundEven_sub_le (q / 2 ^ ulpExp prec emin q)
  have e : roundTo prec emin q - q
      = ((roundEven (q / 2 ^ ulpExp prec emin q) : K) - q / 2 ^ ulpExp prec emin q)
        * 2 ^ ulpExp prec emin q := by
    unfold roundTo
    field_simp
  rw [e, abs_mul, abs_of_pos hu]
  calc |(roundEven (q / 2 ^ ulpExp prec emin q) : K) - q / 2 ^ ulpExp prec emin q|
        * 2 ^ ulpExp prec emin q ≤ 1 / 2 * 2 ^ ulpExp prec emin q :=
        mul_le_mul_of_nonneg_right h hu.le
    _ = 2 ^ ulpExp prec emin q / 2 := by ring

omit [FloorRing K] in
lemma two_natCast : ((2 : ℕ) : K) = 2 := by norm_num

/-- The binary exponent of a value in `[2 ^ e, 2 ^ (e + 1))`. -/
lemma log_two_eq {q : K} {e : ℤ} (h1 : (2 : K) ^ e ≤ q) (h2 : q < 2 ^ (e + 1)) :
    Int.log 2 q = e := by
  have hq : 0 < q := lt_of_lt_of_le (two_zpow_pos e) h1
  have ha : e ≤ Int.log 2 q := by
    rw [← Int.zpow_le_iff_le_log (by norm_num) hq, two_natCast]; exact h1
  have hb : Int.log 2 q < e + 1 := by
    rw [← Int.lt_zpow_iff_log_lt (by norm_num) hq, two_natCast]; exact h2
  omega

lemma two_zpow_log_le {q : K} (hq : 0 < q) : (2 : K) ^ Int.log 2 q ≤ q := by
  have := Int.zpow_log_le_self (b := 2) (by norm_num) hq
  rwa [two_natCast] at this

/-- For a value in `[1/2, 1)` the unit in the last place is `2 ^ (-prec)`. -/
lemma ulpExp_of_mem_half_one {prec : ℕ} {emin : ℤ} (he : emin ≤ -(prec : ℤ)) {q : K}
    (h1 : 1 / 2 ≤ q) (h2 : q < 1) : ulpExp prec emin q = -(prec : ℤ) := by
  have hq : 0 < q := by linarith
  have hl : Int.log 2 q = -1 := by
    apply log_two_eq
    · simpa using h1
    · simpa using h2
  unfold ulpExp
  rw [abs_of_pos hq, hl]
  omega

/-- A value within half a unit in the last place below `1` rounds to `1`. -/
lemma roundTo_eq_one {prec : ℕ} {emin : ℤ} (hp : 1 ≤ prec) (he : emin ≤ -(prec : ℤ)) {q : K}
    (h1 : 1 - 2 ^ (-(prec : ℤ)) / 2 ≤ q) (h2 : q < 1) : roundTo prec emin q = 1 := by
  have hP : (2 : K) ^ (-(prec : ℤ)) ≤ 1 / 2 := by
    have : (2 : K) ^ (-(prec : ℤ)) ≤ 2 ^ (-1 : ℤ) :=
      zpow_le_zpow_right₀ (by norm_num) (by omega)
    simpa using this
  have hhalf : 1 / 2 ≤ q := by linarith
  have hu : ulpExp prec emin q = -(prec : ℤ) := ulpExp_of_mem_half_one he hhalf h2
  unfold roundTo
  rw [hu]
  have hpow : (2 : K) ^ (-(prec : ℤ)) = ((2 : K) ^ prec)⁻¹ := by
    rw [zpow_neg, zpow_natCast]
  have hpos : (0 : K) < 2 ^ prec := by positivity
  rw [hpow] at h1 ⊢
  rw [div_inv_eq_mul]
  set r : K := q * 2 ^ prec with hr
  have hr1 : (2 : K) ^ prec - 1 / 2 ≤ r := by
    have : (1 - (2 ^ prec)⁻¹ / 2) * 2 ^ prec ≤ q * (2 : K) ^ prec :=
      mul_le_mul_of_nonneg_right h1 hpos.le
    have e : (1 - ((2 : K) ^ prec)⁻¹ / 2) * 2 ^ prec = 2 ^ prec - 1 / 2 := by
      field_simp
      ring
    linarith
  have hr2 : r < 2 ^ prec := by
    have := mul_lt_mul_of_pos_right h2 hpos
    simpa [hr] using this
  have hfl : ⌊r⌋ = 2 ^ prec - 1 := by
    rw [Int.floor_eq_iff]
    push_cast
    constructor <;> linarith
  have hodd : ((2 : ℤ) ^ prec - 1) % 2 = 1 := by
    obtain ⟨k, rfl⟩ : ∃ k, prec = k + 1 := ⟨prec - 1, by omega⟩
    rw [pow_succ]
    omega
  have hre : roundEven r = 2 ^ prec := by
    unfold roundEven
    rw [hfl]
    push_cast
    split_ifs with ha hb hc
    · exfalso; linarith
    · ring
    · omega
    · ring
  rw [hre]
  push_cast
  field_simp

/-- A positive value at least `2 ^ emin` rounds to a positive value. -/
lemma roundTo_pos {prec : ℕ} {emin : ℤ} (hp : 1 ≤ prec) {q : K} (hq : 0 < q)
    (hmin : (2 : K) ^ emin ≤ q) : 0 < roundTo prec emin q := by
  have hu := two_zpow_pos (K := K) (ulpExp prec emin q)
  have hle : (2 : K) ^ ulpExp prec emin q ≤ q := by
    unfold ulpExp
    rw [abs_of_pos hq]
    rcases max_cases (Int.log 2 q - ((prec : ℤ) - 1)) emin with ⟨h, -⟩ | ⟨h, -⟩
    · rw [h]
      calc (2 : K) ^ (Int.log 2 q - ((prec : ℤ) - 1)) ≤ 2 ^ Int.log 2 q :=
            zpow_le_zpow_right₀ (by norm_num) (by omega)
        _ ≤ q := two_zpow_log_le hq
    · rw [h]; exact hmin
  have h1 : (1 : K) ≤ q / 2 ^ ulpExp prec emin q := by
    rw [le_div_iff₀ hu]; simpa using hle
  have hfl : (1 : ℤ) ≤ ⌊q / 2 ^ ulpExp prec emin q⌋ := by
    rw [Int.le_floor]; simpa using h1
  have hre : (1 : ℤ) ≤ roundEven (q / 2 ^ ulpExp prec emin q) :=
    le_trans hfl (floor_le_roundEven _)
  unfold roundTo
  have : (1 : K) ≤ (roundEven (q / 2 ^ ulpExp prec emin q) : K) := by exact_mod_cast hre
  positivity

end RoundingLemmas

/-! ## The distribution functions in exact arithmetic -/

lemma exact_cdf_some {dof : ℤ} (h : 1 ≤ dof) {x : ℝ} (hx : 0 ≤ x) :
    exactStats.chi2cdf dof x = some (chi2CDF dof x) := by
  have : 0 < dof ∧ 0 ≤ x := ⟨by omega, hx⟩
  simp only [exactStats, if_pos this]

section RoundingLemmas

variable {K : Type} [LinearOrderedField K] [FloorRing K]

/-- The unit in the last place of a nonzero value of magnitude at least `2 ^ emin` does not
exceed the magnitude. -/
lemma two_zpow_ulpExp_le {prec : ℕ} {emin : ℤ} (hp : 1 ≤ prec) {q : K} (hq : q ≠ 0)
    (hmin : (2 : K) ^ emin ≤ |q|) : (2 : K) ^ ulpExp prec emin q ≤ |q| := by
  have hpos : 0 < |q| := abs_pos.mpr hq
  unfold ulpExp
  rcases max_cases (Int.log 2 |q| - ((prec : ℤ) - 1)) emin with ⟨h, -⟩ | ⟨h, -⟩
  · rw [h]
    calc (2 : K) ^ (Int.log 2 |q| - ((prec : ℤ) - 1)) ≤ 2 ^ Int.log 2 |q| :=
          zpow_le_zpow_right₀ (by norm_num) (by omega)
      _ ≤ |q| := two_zpow_log_le hpos
  · rw [h]; exact hmin

/-- Rounding never turns a nonzero value of magnitude at least `2 ^ emin` into zero. -/
lemma roundTo_ne_zero {prec : ℕ} {emin : ℤ} (hp : 1 ≤ prec) {q : K} (hq : q ≠ 0)
    (hmin : (2 : K) ^ emin ≤ |q|) : roundTo prec emin q ≠ 0 := by
  intro h0
  have he := abs_roundTo_sub_le prec emin q
  have hu := two_zpow_ulpExp_le hp hq hmin
  have hpos : 0 < |q| := abs_pos.mpr hq
  rw [h0, zero_sub, abs_neg] at he
  linarith

/-- Rounding a positive value of magnitude at least `2 ^ emin` loses at most half of it. -/
lemma half_le_roundTo {prec : ℕ} {emin : ℤ} (hp : 1 ≤ prec) {q : K} (hq : 0 < q)
    (hmin : (2 : K) ^ emin ≤ q) : q / 2 ≤ roundTo prec emin q := by
  have he := abs_roundTo_sub_le prec emin q
  have hu := two_zpow_ulpExp_le hp hq.ne' (by rwa [abs_of_pos hq])
  rw [abs_of_pos hq] at hu
  have := (abs_le.mp he).1
  linarith

/-- Below `1` in magnitude the unit in the last place is at most `2 ^ (-prec)`. -/
lemma ulpExp_le_of_abs_lt_one {prec : ℕ} {emin : ℤ} (he : emin ≤ -(prec : ℤ)) {q : K}
    (hq : q ≠ 0) (h1 : |q| < 1) : ulpExp prec emin q ≤ -(prec : ℤ) := by
  have hpos : 0 < |q| := abs_pos.mpr hq
  have hl : Int.log 2 |q| < 0 := by
    rw [← Int.lt_zpow_iff_log_lt (by norm_num) hpos]; simpa using h1
  unfold ulpExp
  omega

/-- Below `1` in magnitude the rounding error is at most `2 ^ (-prec) / 2`. -/
lemma abs_roundTo_sub_le_of_abs_lt_one {prec : ℕ} {emin : ℤ} (he : emin ≤ -(prec : ℤ)) {q : K}
    (h1 : |q| < 1) : |roundTo prec emin q - q| ≤ 2 ^ (-(prec : ℤ)) / 2 := by
  by_cases hq : q = 0
  · rw [hq, roundTo_zero]
    have := two_zpow_pos (K := K) (-(prec : ℤ))
    simp only [sub_zero, abs_zero]
    linarith
  · have hle : (2 : K) ^ ulpExp prec emin q ≤ 2 ^ (-(prec : ℤ)) :=
      zpow_le_zpow_right₀ (by norm_num) (ulpExp_le_of_abs_lt_one he hq h1)
    have := abs_roundTo_sub_le prec emin q
    linarith

/-- A value in `[1/2, 1 - 2 ^ (-prec)]` rounds to a value below `1`. -/
lemma roundTo_lt_one {prec : ℕ} {emin : ℤ} (he : emin ≤ -(prec : ℤ)) {q : K}
    (h1 : 0 ≤ q) (h2 : q ≤ 1 - 2 ^ (-(prec : ℤ))) : roundTo prec emin q < 1 := by
  have hpos := two_zpow_pos (K := K) (-(prec : ℤ))
  have habs : |q| < 1 := by rw [abs_of_nonneg h1]; linarith
  have := (abs_le.mp (abs_roundTo_sub_le_of_abs_lt_one he habs)).2
  linarith

/-- A value left alone by rounding is an integer multiple of the least unit. -/
lemma lattice_of_roundTo_eq (prec : ℕ) (emin : ℤ) {x : K} (h : roundTo prec emin x = x) :
    ∃ n : ℤ, x = n * 2 ^ emin := by
  have hge : emin ≤ ulpExp prec emin x := le_max_right _ _
  obtain ⟨k, hk⟩ : ∃ k : ℕ, ulpExp prec emin x = emin + k :=
    ⟨(ulpExp prec emin x - emin).toNat, by omega⟩
  refine ⟨roundEven (x / 2 ^ ulpExp prec emin x) * 2 ^ k, ?_⟩
  have h2 : (2 : K) ^ ulpExp prec emin x = 2 ^ k * 2 ^ emin := by
    rw [hk, zpow_add₀ (by norm_num), zpow_natCast, mul_comm]
  conv_lhs => rw [← h]
  unfold roundTo
  rw [h2]
  push_cast
  ring

end RoundingLemmas

/-- In a format with least unit `2 ^ (-k)` the rounded difference `1 - x` of a value `x` of the
format is zero only for `x = 1`. -/
lemma roundTo_one_sub_eq_zero (prec k : ℕ) (hp : 1 ≤ prec) {x : ℝ}
    (hx : roundTo prec (-(k : ℤ)) x = x) (h : roundTo prec (-(k : ℤ)) (1 - x) = 0) : x = 1 := by
  by_contra hne
  obtain ⟨n, hn⟩ := lattice_of_roundTo_eq prec (-(k : ℤ)) hx
  have hq : (1 : ℝ) - x ≠ 0 := fun h0 => hne (by linarith)
  have hu : (0 : ℝ) < 2 ^ (-(k : ℤ)) := two_zpow_pos _
  have hone : (1 : ℝ) = ((2 : ℤ) ^ k : ℤ) * 2 ^ (-(k : ℤ)) := by
    push_cast
    rw [zpow_neg, zpow_natCast]
    exact (mul_inv_cancel₀ (by positivity)).symm
  have hlat : (1 : ℝ) - x = (((2 : ℤ) ^ k - n : ℤ) : ℝ) * 2 ^ (-(k : ℤ)) := by
    rw [Int.cast_sub, sub_mul, ← hone, ← hn]
  have hk : ((2 : ℤ) ^ k - n) ≠ 0 := by
    intro h0
    rw [h0] at hlat
    simp at hlat
    exact hq (by linarith)
  have hk1 : (1 : ℝ) ≤ |(((2 : ℤ) ^ k - n : ℤ) : ℝ)| := by
    rw [← Int.cast_abs]
    exact_mod_cast Int.one_le_abs hk
  have hmin : (2 : ℝ) ^ (-(k : ℤ)) ≤ |1 - x| := by
    rw [hlat, abs_mul, abs_of_pos hu]
    nlinarith
  exact roundTo_ne_zero hp hq hmin h

/-- The native difference `1. - x` of a double `x` is zero only for `x = 1`. -/
lemma double_one_sub_eq_zero {x : ℝ} (hx : IsDouble x)
    (h : roundTo 53 (-1074) (1 - x) = 0) : x = 1 :=
  roundTo_one_sub_eq_zero 53 1074 (by norm_num) hx h

lemma chi2CDF_two {x : ℝ} (hx : 0 ≤ x) : chi2CDF 2 x = 1 - Real.exp (-(x / 2)) := by
  have h := exponentialCDFReal_eq (r := 1 / 2) (by norm_num) x
  rw [if_pos hx] at h
  have e : ((2 : ℤ) : ℝ) / 2 = 1 := by norm_num
  unfold chi2CDF chi2Measure
  rw [e]
  simpa [exponentialCDFReal, expMeasure, div_eq_inv_mul] using h

lemma two_pow_le_exp (n : ℕ) : (2 : ℝ) ^ n ≤ Real.exp n := by
  have h2 : (2 : ℝ) ≤ Real.exp 1 := by
    have := Real.exp_one_gt_d9
    linarith
  calc (2 : ℝ) ^ n ≤ Real.exp 1 ^ n := pow_le_pow_left₀ (by norm_num) h2 n
    _ = Real.exp n := by rw [← Real.exp_nat_mul, mul_one]

lemma exp_le_four_pow (n : ℕ) : Real.exp n ≤ (4 : ℝ) ^ n := by
  have h4 : Real.exp 1 ≤ 4 := by
    have := Real.exp_one_lt_d9
    linarith
  calc Real.exp n = Real.exp 1 ^ n := by rw [← Real.exp_nat_mul, mul_one]
    _ ≤ (4 : ℝ) ^ n := pow_le_pow_left₀ (Real.exp_pos 1).le h4 n

/-- The tail probability of a chi-squared distribution as the measure of a ray. -/
lemma one_sub_chi2CDF {dof : ℤ} (h : 1 ≤ dof) (x : ℝ) :
    1 - chi2CDF dof x = (chi2Measure dof (Ioi x)).toReal := by
  have hp := chi2Measure_prob h
  have hc : chi2Measure dof (Ioi x) = 1 - chi2Measure dof (Iic x) := by
    rw [← compl_Iic]; exact prob_compl_eq_one_sub measurableSet_Iic
  rw [hc, ENNReal.toReal_sub_of_le prob_le_one ENNReal.one_ne_top, ENNReal.one_toReal,
    chi2CDF, cdf_eq_toReal]

/-- From `1` on, the density for one degree of freedom is below that for two. -/
lemma gammaPDF_half_le {t : ℝ} (ht : 1 ≤ t) :
    gammaPDF (((1 : ℤ) : ℝ) / 2) (1 / 2) t ≤ gammaPDF (((2 : ℤ) : ℝ) / 2) (1 / 2) t := by
  have ht0 : 0 ≤ t := by linarith
  unfold gammaPDF
  apply ENNReal.ofReal_le_ofReal
  simp only [gammaPDFReal, if_pos ht0]
  have e1 : (((1 : ℤ) : ℝ) / 2) = 1 / 2 := by norm_num
  have e2 : (((2 : ℤ) : ℝ) / 2) = 1 := by norm_num
  rw [e1, e2, Real.Gamma_one_half_eq, Real.Gamma_one, sub_self, Real.rpow_zero, Real.rpow_one,
    ← Real.sqrt_eq_rpow]
  have hexp : 0 ≤ Real.exp (-(1 / 2 * t)) := (Real.exp_pos _).le
  have hpow : t ^ ((1 : ℝ) / 2 - 1) ≤ 1 :=
    Real.rpow_le_one_of_one_le_of_nonpos ht (by norm_num)
  have hpow0 : 0 ≤ t ^ ((1 : ℝ) / 2 - 1) := Real.rpow_nonneg ht0 _
  have hconst : √(1 / 2) / √π ≤ 1 / 2 := by
    rw [div_le_iff₀ (Real.sqrt_pos.mpr Real.pi_pos)]
    have h4 : √(1 / 2) = 1 / 2 * √2 := by
      rw [show (1 / 2 : ℝ) = 2 / 2 ^ 2 by norm_num, Real.sqrt_div' _ (by positivity),
        Real.sqrt_sq (by norm_num)]
      ring
    rw [h4]
    have : √2 ≤ √π := Real.sqrt_le_sqrt (by linarith [Real.pi_gt_three])
    linarith
  have hconst0 : 0 ≤ √(1 / 2) / √π := by positivity
  calc √(1 / 2) / √π * t ^ ((1 : ℝ) / 2 - 1) * Real.exp (-(1 / 2 * t))
      ≤ 1 / 2 * 1 * Real.exp (-(1 / 2 * t)) := by
        apply mul_le_mul_of_nonneg_right _ hexp
        exact mul_le_mul hconst hpow hpow0 (by norm_num)
    _ = 1 / 2 / 1 * 1 * Real.exp (-(1 / 2 * t)) := by ring

/-- From `1` on, the tail probability for one degree of freedom is at most `exp(-x/2)`. -/
lemma chi2_tail_one_le {x : ℝ} (hx : 1 ≤ x) : 1 - chi2CDF 1 x ≤ Real.exp (-(x / 2)) := by
  have h2 : 1 - chi2CDF 2 x = Real.exp (-(x / 2)) := by
    rw [chi2CDF_two (by linarith)]; ring
  have hp2 := @chi2Measure_prob 2 (by norm_num)
  rw [← h2, one_sub_chi2CDF (by norm_num), one_sub_chi2CDF (by norm_num)]
  apply ENNReal.toReal_mono (measure_ne_top _ _)
  unfold chi2Measure gammaMeasure
  rw [withDensity_apply _ measurableSet_Ioi, withDensity_apply _ measurableSet_Ioi]
  exact setLIntegral_mono (measurable_gammaPDFReal _ _).ennreal_ofReal
    (fun t ht => gammaPDF_half_le (le_trans hx (le_of_lt ht)))

lemma binary64_arg (x : ℝ) : invchi2cdf_1mx_arg binary64 x = roundTo 53 (-1074) (1 - x) := rfl

lemma binary128_tmp (x : ℝ) :
    invchi2cdf_1mx_128b_tmp binary128 x = roundTo 113 (-16494) (1 - x) := rfl

lemma bin100_tmp (x : ℝ) :
    invchi2cdf_1mx_100d_tmp bin100 x = roundTo 334 (-2147483313) (1 - x) := rfl

lemma two_zpow_neg_natCast (n : ℕ) : (2 : ℝ) ^ (-(n : ℤ)) = 1 / 2 ^ n := by
  rw [zpow_neg, zpow_natCast, one_div]

/-- The largest double below `1`. -/
lemma isDouble_pred_one : IsDouble (1 - 1 / 2 ^ 53) := by
  have hu : ulpExp 53 (-1074) (1 - 1 / 2 ^ 53 : ℝ) = -((53 : ℕ) : ℤ) :=
    ulpExp_of_mem_half_one (by norm_num) (by norm_num) (by norm_num)
  unfold IsDouble roundTo
  rw [hu, two_zpow_neg_natCast]
  have e : (1 - 1 / 2 ^ 53 : ℝ) / (1 / 2 ^ 53) = ((2 ^ 53 - 1 : ℤ) : ℝ) := by
    push_cast
    field_simp
    norm_num
  rw [e, roundEven_intCast]
  push_cast
  field_simp
  norm_num

/-- C7, as stated, fails: there is no double `x` for which the native-double difference `1. - x`
is `0` while the difference formed in an elevated tier is not. -/
theorem invchi2cdf_1mx_no_collapse_to_zero :
    ¬ ∃ x : ℝ, IsDouble x ∧ invchi2cdf_1mx_arg binary64 x = 0 ∧
      (invchi2cdf_1mx_128b_tmp binary128 x ≠ 0 ∨ invchi2cdf_1mx_100d_tmp bin100 x ≠ 0) := by
  rintro ⟨x, hx, h0, hne⟩
  have h1 : x = 1 := double_one_sub_eq_zero hx (by rwa [binary64_arg] at h0)
  rw [binary128_tmp, bin100_tmp, h1, sub_self, roundTo_zero, roundTo_zero] at hne
  rcases hne with h | h <;> exact h rfl

/-- C7, amended. `invchi2cdf_1mx` hands the quantile the difference `1 - x` rounded in native
double; `invchi2cdf_1mx_128b` and `invchi2cdf_1mx_100d` hand it the difference rounded in the
tier (113 and 334 significand bits).  The native difference of a double `x ≠ 1` is never `0`.
The tiers part ways for `x` extremely close to `0`: for `2^-113 <= x <= 2^-54` the native-double
difference has collapsed to `1`, the tier differences are below `1`, so the elevated tiers
receive a different probability argument than the double tier. -/
theorem invchi2cdf_1mx_tier_difference (x : ℝ) (dof : ℤ) :
    (invchi2cdf_1mx binary64 x dof
        = binary64.chi2quantile dof (roundTo 53 (-1074) (1 - x)) ∧
      invchi2cdf_1mx_128b binary128 x dof
        = (binary128.chi2quantile dof (roundTo 113 (-16494) (1 - x))).map
            (roundTo 53 (-1074)) ∧
      invchi2cdf_1mx_100d bin100 x dof
        = (bin100.chi2quantile dof (roundTo 334 (-2147483313) (1 - x))).map
            (roundTo 53 (-1074))) ∧
    (IsDouble x → x ≠ 1 → invchi2cdf_1mx_arg binary64 x ≠ 0) ∧
    (1 / 2 ^ 113 ≤ x → x ≤ 1 / 2 ^ 54 →
      invchi2cdf_1mx_arg binary64 x = 1 ∧
      invchi2cdf_1mx_128b_tmp binary128 x < 1 ∧
      invchi2cdf_1mx_100d_tmp bin100 x < 1) := by
  refine ⟨⟨rfl, rfl, rfl⟩, ?_, ?_⟩
  · intro hx hne h0
    exact hne (double_one_sub_eq_zero hx (by rwa [binary64_arg] at h0))
  · intro hlo hhi
    have hpos : (0 : ℝ) < 1 / 2 ^ 113 := by positivity
    refine ⟨?_, ?_, ?_⟩
    · rw [binary64_arg]
      apply roundTo_eq_one (by norm_num) (by norm_num)
      · rw [two_zpow_neg_natCast]
        have : (1 : ℝ) / 2 ^ 53 / 2 = 1 / 2 ^ 54 := by norm_num
        linarith
      · linarith
    · rw [binary128_tmp]
      apply roundTo_lt_one (by norm_num)
      · have : (1 : ℝ) / 2 ^ 54 ≤ 1 := by
          rw [div_le_one (by positivity)]; exact one_le_pow₀ (by norm_num)
        linarith
      · rw [two_zpow_neg_natCast]; linarith
    · rw [bin100_tmp]
      apply roundTo_lt_one (by norm_num)
      · have : (1 : ℝ) / 2 ^ 54 ≤ 1 := by
          rw [div_le_one (by positivity)]; exact one_le_pow₀ (by norm_num)
        linarith
      · rw [two_zpow_neg_natCast]
        have : (1 : ℝ) / 2 ^ 334 ≤ 1 / 2 ^ 113 :=
          one_div_le_one_div_of_le (by positivity)
            (pow_le_pow_right₀ (by norm_num) (by norm_num))
        linarith

theorem invchi2cdf_1mx_tier_difference_witness :
    (IsDouble (1 - 1 / 2 ^ 53) ∧ (1 - 1 / 2 ^ 53 : ℝ) ≠ 1 ∧
      invchi2cdf_1mx_arg binary64 (1 - 1 / 2 ^ 53) ≠ 0) ∧
    ((1 : ℝ) / 2 ^ 113 ≤ 1 / 2 ^ 60 ∧ (1 : ℝ) / 2 ^ 60 ≤ 1 / 2 ^ 54 ∧
      invchi2cdf_1mx_arg binary64 (1 / 2 ^ 60) = 1 ∧
      invchi2cdf_1mx_128b_tmp binary128 (1 / 2 ^ 60) < 1 ∧
      invchi2cdf_1mx_100d_tmp bin100 (1 / 2 ^ 60) < 1) :=
  have hne : (1 - 1 / 2 ^ 53 : ℝ) ≠ 1 := by norm_num
  have hlo : (1 : ℝ) / 2 ^ 113 ≤ 1 / 2 ^ 60 :=
    one_div_le_one_div_of_le (by positivity) (pow_le_pow_right₀ (by norm_num) (by norm_num))
  have hhi : (1 : ℝ) / 2 ^ 60 ≤ 1 / 2 ^ 54 :=
    one_div_le_one_div_of_le (by positivity) (pow_le_pow_right₀ (by norm_num) (by norm_num))
  ⟨⟨isDouble_pred_one, hne,
      (invchi2cdf_1mx_tier_difference (1 - 1 / 2 ^ 53) 1).2.1 isDouble_pred_one hne⟩,
    hlo, hhi, (invchi2cdf_1mx_tier_difference (1 / 2 ^ 60) 1).2.2 hlo hhi⟩

lemma rounded_cdf_some (prec : ℕ) (emin : ℤ) {dof : ℤ} (h : 1 ≤ dof) {x : ℝ} (hx : 0 ≤ x) :
    (roundedStats prec emin).chi2cdf dof x = some (roundTo prec emin (chi2CDF dof x)) := by
  show (exactStats.chi2cdf dof x).map (roundTo prec emin) = _
  rw [exact_cdf_some h hx, Option.map_some']

/-- When the exact tail probability is at most half a unit in the last place of the tier, the
rounded CDF is `1` and the complement formed in the tier is `0`. -/
lemma rounded_complement_eq_zero {prec : ℕ} {emin : ℤ} (hp : 1 ≤ prec)
    (he : emin ≤ -(prec : ℤ)) {c : ℝ} (h1 : 1 - 2 ^ (-(prec : ℤ)) / 2 ≤ c) (h2 : c < 1) :
    roundTo prec emin (1 - roundTo prec emin c) = 0 := by
  rw [roundTo_eq_one hp he h1 h2, sub_self, roundTo_zero]

lemma exp_neg_le_two_zpow (n : ℕ) : Real.exp (-(n : ℝ)) ≤ 2 ^ (-(n : ℤ)) := by
  rw [Real.exp_neg, zpow_neg, zpow_natCast]
  exact inv_anti₀ (by positivity) (two_pow_le_exp n)

/-- A tail probability of at most `exp(-n)` with `n >= 335` is lost in both tiers: the native
double complement and the complement formed in the 334-bit tier are `0`. -/
lemma collapse_of_tail {dof : ℤ} (hdof : 1 ≤ dof) {x : ℝ} (hx : 0 ≤ x) (n : ℕ) (hn : 335 ≤ n)
    (h : 1 - chi2CDF dof x ≤ Real.exp (-(n : ℝ))) :
    onemin_chi2cdf binary64 x dof = some 0 ∧ onemin_chi2cdf_100d bin100 x dof = some 0 := by
  have hlt : chi2CDF dof x < 1 := chi2CDF_lt_one hdof x
  have hle : 1 - chi2CDF dof x ≤ 2 ^ (-(n : ℤ)) := le_trans h (exp_neg_le_two_zpow n)
  have h334 : (2 : ℝ) ^ (-(n : ℤ)) ≤ 2 ^ (-((334 : ℕ) : ℤ)) / 2 := by
    have : (2 : ℝ) ^ (-((334 : ℕ) : ℤ)) / 2 = 2 ^ (-((334 : ℕ) : ℤ) - 1) := by
      rw [zpow_sub_one₀ (by norm_num)]; ring
    rw [this]
    exact zpow_le_zpow_right₀ (by norm_num) (by push_cast; omega)
  have h53 : (2 : ℝ) ^ (-(n : ℤ)) ≤ 2 ^ (-((53 : ℕ) : ℤ)) / 2 := by
    have : (2 : ℝ) ^ (-((53 : ℕ) : ℤ)) / 2 = 2 ^ (-((53 : ℕ) : ℤ) - 1) := by
      rw [zpow_sub_one₀ (by norm_num)]; ring
    rw [this]
    exact zpow_le_zpow_right₀ (by norm_num) (by push_cast; omega)
  have key : ∀ a b c : ℝ, 1 - c ≤ a → a ≤ b → 1 - b ≤ c := fun a b c h1 h2 => by linarith
  constructor
  · show ((roundedStats 53 (-1074)).chi2cdf dof x).map
      (fun c => roundTo 53 (-1074) (1 - c)) = some 0
    rw [rounded_cdf_some 53 (-1074) hdof hx, Option.map_some',
      rounded_complement_eq_zero (by norm_num) (by norm_num) (key _ _ _ hle h53) hlt]
  · show ((roundedStats 334 (-2147483313)).chi2cdf dof x).map
      (fun c => roundTo 53 (-1074) (roundTo 334 (-2147483313) (1 - c))) = some 0
    rw [rounded_cdf_some 334 (-2147483313) hdof hx, Option.map_some',
      rounded_complement_eq_zero (by norm_num) (by norm_num) (key _ _ _ hle h334) hlt,
      roundTo_zero]

/-- C8, as stated, fails: at `x = 1000`, with `dof = 1` as with `dof = 2`, the complement
computed in native double has collapsed to `0`, and `onemin_chi2cdf_100d` returns `0` as well
(the tail probability is at most `exp(-500)`, below half a unit in the last place of the 334-bit
CDF value `1`). -/
theorem onemin_chi2cdf_100d_collapses_too :
    (onemin_chi2cdf binary64 1000 1 = some 0 ∧ onemin_chi2cdf_100d bin100 1000 1 = some 0) ∧
    (onemin_chi2cdf binary64 1000 2 = some 0 ∧ onemin_chi2cdf_100d bin100 1000 2 = some 0) := by
  have e : -((1000 : ℝ) / 2) = -((500 : ℕ) : ℝ) := by norm_num
  constructor
  · apply collapse_of_tail (by norm_num) (by norm_num) 500 (by norm_num)
    rw [← e]
    exact chi2_tail_one_le (by norm_num)
  · apply collapse_of_tail (by norm_num) (by norm_num) 500 (by norm_num)
    rw [← e, chi2CDF_two (by norm_num)]
    linarith

/-- C8, amended. Precision preservation of `onemin_chi2cdf_100d` within the range of the tier:
for every `dof >= 1` and every `x >= 0` whose exact tail probability `1 - CDF(x)` is at least
`2^-333` (about `1e-100`), the function returns a positive double, also where the complement
computed in native double has collapsed to `0`. -/
theorem onemin_chi2cdf_100d_preserves_tail (dof : ℤ) (x : ℝ) (hdof : 1 ≤ dof) (hx : 0 ≤ x)
    (htail : 1 / 2 ^ 333 ≤ 1 - chi2CDF dof x) :
    ∃ r : ℝ, onemin_chi2cdf_100d bin100 x dof = some r ∧ 0 < r := by
  have hc0 : 0 ≤ chi2CDF dof x := cdf_nonneg _ _
  obtain ⟨t, ht⟩ : ∃ t : ℝ, t = 2 ^ (-((334 : ℕ) : ℤ)) := ⟨_, rfl⟩
  have htpos : 0 < t := ht ▸ two_zpow_pos _
  have h333 : (1 : ℝ) / 2 ^ 333 = 2 * t := by
    rw [ht, two_zpow_neg_natCast]; norm_num
  rw [h333] at htail
  have hcabs : |chi2CDF dof x| < 1 := by
    rw [abs_of_nonneg hc0]
    linarith
  have herr := abs_le.mp
    (@abs_roundTo_sub_le_of_abs_lt_one ℝ _ _ 334 (-2147483313) (by norm_num) _ hcabs)
  rw [← ht] at herr
  obtain ⟨d, hd⟩ : ∃ d : ℝ, d = 1 - roundTo 334 (-2147483313) (chi2CDF dof x) := ⟨_, rfl⟩
  have hdge : t ≤ d := by rw [hd]; linarith [herr.2]
  have hdpos : 0 < d := lt_of_lt_of_le htpos hdge
  have hmin100 : (2 : ℝ) ^ (-2147483313 : ℤ) ≤ d := by
    rw [ht] at hdge
    exact le_trans (zpow_le_zpow_right₀ (by norm_num) (by norm_num)) hdge
  have hd' := @half_le_roundTo ℝ _ _ 334 (-2147483313) (by norm_num) _ hdpos hmin100
  have hd'pos : 0 < roundTo 334 (-2147483313) d := by linarith
  have hmin64 : (2 : ℝ) ^ (-1074 : ℤ) ≤ roundTo 334 (-2147483313) d := by
    have h1 : (2 : ℝ) ^ (-1074 : ℤ) ≤ 2 ^ (-((334 : ℕ) : ℤ) - 1) :=
      zpow_le_zpow_right₀ (by norm_num) (by norm_num)
    have h2 : (2 : ℝ) ^ (-((334 : ℕ) : ℤ) - 1) = t / 2 := by
      rw [zpow_sub_one₀ (by norm_num), ht]; ring
    have h3 : t / 2 ≤ roundTo 334 (-2147483313) d := le_trans (by linarith) hd'
    exact le_trans h1 (h2 ▸ h3)
  refine ⟨roundTo 53 (-1074) (roundTo 334 (-2147483313) d), ?_,
    roundTo_pos (by norm_num) hd'pos hmin64⟩
  show ((roundedStats 334 (-2147483313)).chi2cdf dof x).map
    (fun c => roundTo 53 (-1074) (roundTo 334 (-2147483313) (1 - c))) = _
  rw [rounded_cdf_some 334 (-2147483313) hdof hx, Option.map_some', hd]

lemma tail_200 : (1 : ℝ) / 2 ^ 333 ≤ 1 - chi2CDF 2 200 ∧
    1 - (2 : ℝ) ^ (-((53 : ℕ) : ℤ)) / 2 ≤ chi2CDF 2 200 ∧ chi2CDF 2 200 < 1 := by
  have hc : chi2CDF 2 200 = 1 - Real.exp (-((100 : ℕ) : ℝ)) := by
    rw [chi2CDF_two (by norm_num)]; norm_num
  have hle := exp_neg_le_two_zpow 100
  have hpos := Real.exp_pos (-((100 : ℕ) : ℝ))
  have h53 : (2 : ℝ) ^ (-((100 : ℕ) : ℤ)) ≤ 2 ^ (-((53 : ℕ) : ℤ)) / 2 := by
    have : (2 : ℝ) ^ (-((53 : ℕ) : ℤ)) / 2 = 2 ^ (-((53 : ℕ) : ℤ) - 1) := by
      rw [zpow_sub_one₀ (by norm_num)]; ring
    rw [this]
    exact zpow_le_zpow_right₀ (by norm_num) (by norm_num)
  have hlow : (1 : ℝ) / 2 ^ 333 ≤ Real.exp (-((100 : ℕ) : ℝ)) := by
    rw [Real.exp_neg, one_div]
    apply inv_anti₀ (Real.exp_pos _)
    calc Real.exp ((100 : ℕ) : ℝ) ≤ (4 : ℝ) ^ 100 := exp_le_four_pow 100
      _ = 2 ^ 200 := by norm_num
      _ ≤ 2 ^ 333 := pow_le_pow_right₀ (by norm_num) (by norm_num)
  rw [hc]
  have key : ∀ a b e : ℝ, e ≤ a → a ≤ b → 1 - b ≤ 1 - e := fun a b e h1 h2 => by linarith
  exact ⟨by linarith, key _ _ _ hle h53, by linarith⟩

theorem onemin_chi2cdf_100d_preserves_tail_witness :
    ((1 : ℤ) ≤ 2 ∧ (0 : ℝ) ≤ 200 ∧ (1 : ℝ) / 2 ^ 333 ≤ 1 - chi2CDF 2 200) ∧
    onemin_chi2cdf binary64 200 2 = some 0 ∧
    ∃ r : ℝ, onemin_chi2cdf_100d bin100 200 2 = some r ∧ 0 < r := by
  obtain ⟨hlow, h53, hlt⟩ := tail_200
  refine ⟨⟨by norm_num, by norm_num, hlow⟩, ?_,
    onemin_chi2cdf_100d_preserves_tail 2 200 (by norm_num) (by norm_num) hlow⟩
  show ((roundedStats 53 (-1074)).chi2cdf 2 200).map
    (fun c => roundTo 53 (-1074) (1 - c)) = some 0
  rw [rounded_cdf_some 53 (-1074) (by norm_num) (by norm_num), Option.map_some',
    rounded_complement_eq_zero (by norm_num) (by norm_num) h53 hlt]

/-! ## The normal complement under rounding -/

section RoundingLemmas

variable {K : Type} [LinearOrderedField K] [FloorRing K]

lemma roundTo_one {prec : ℕ} {emin : ℤ} (hp : 1 ≤ prec) (he : emin ≤ -(prec : ℤ)) :
    roundTo prec emin (1 : K) = 1 := by
  obtain ⟨k, rfl⟩ : ∃ k, prec = k + 1 := ⟨prec - 1, by omega⟩
  have hu : ulpExp (k + 1) emin (1 : K) = -(k : ℤ) := by
    unfold ulpExp
    rw [abs_one, Int.log_one_right]
    push_cast at he ⊢
    omega
  unfold roundTo
  rw [hu, zpow_neg, zpow_natCast, one_div, inv_inv]
  have e : ((2 : K) ^ k) = (((2 : ℤ) ^ k : ℤ) : K) := by push_cast; rfl
  rw [e, roundEven_intCast, ← e]
  exact mul_inv_cancel₀ (by positivity)

lemma roundTo_nonneg (prec : ℕ) (emin : ℤ) {q : K} (hq : 0 ≤ q) : 0 ≤ roundTo prec emin q := by
  have hu := two_zpow_pos (K := K) (ulpExp prec emin q)
  have h0 : (0 : ℤ) ≤ ⌊q / 2 ^ ulpExp prec emin q⌋ := Int.floor_nonneg.mpr (by positivity)
  have h1 : (0 : ℤ) ≤ roundEven (q / 2 ^ ulpExp prec emin q) :=
    le_trans h0 (floor_le_roundEven _)
  have h2 : (0 : K) ≤ (roundEven (q / 2 ^ ulpExp prec emin q) : K) := by exact_mod_cast h1
  unfold roundTo
  positivity

/-- On `[0,1]` the rounding error is at most `2 ^ (-prec) / 2`. -/
lemma abs_roundTo_sub_le_unit {prec : ℕ} {emin : ℤ} (hp : 1 ≤ prec) (he : emin ≤ -(prec : ℤ))
    {q : K} (h0 : 0 ≤ q) (h1 : q ≤ 1) : |roundTo prec emin q - q| ≤ 2 ^ (-(prec : ℤ)) / 2 := by
  rcases h1.eq_or_lt with h | h
  · rw [h, roundTo_one hp he, sub_self, abs_zero]
    have := two_zpow_pos (K := K) (-(prec : ℤ))
    linarith
  · exact abs_roundTo_sub_le_of_abs_lt_one he (by rwa [abs_of_nonneg h0])

/-- Rounding keeps a value of `[0,1]` in `[0,1]`. -/
lemma roundTo_le_one {prec : ℕ} {emin : ℤ} (hp : 1 ≤ prec) (he : emin ≤ -(prec : ℤ))
    {q : K} (h0 : 0 ≤ q) (h1 : q ≤ 1) : roundTo prec emin q ≤ 1 := by
  rcases h1.eq_or_lt with h | h
  · rw [h, roundTo_one hp he]
  · rcases le_or_lt (1 - 2 ^ (-(prec : ℤ)) / 2) q with hq | hq
    · rw [roundTo_eq_one hp he hq h]
    · have := (abs_le.mp (abs_roundTo_sub_le_of_abs_lt_one (K := K) he
        (by rwa [abs_of_nonneg h0]))).2
      linarith

end RoundingLemmas

/-- The sum of a rounded probability and its rounded complement, both narrowed to double. -/
lemma rounded_complement_sum {prec : ℕ} {emin : ℤ} (hp : 53 ≤ prec) (he : emin ≤ -(prec : ℤ))
    {c : ℝ} (h0 : 0 ≤ c) (h1 : c ≤ 1) :
    |roundTo 53 (-1074) (roundTo prec emin c)
      + roundTo 53 (-1074) (roundTo prec emin (1 - roundTo prec emin c)) - 1| ≤ 1 / 2 ^ 52 := by
  have hp1 : 1 ≤ prec := le_trans (by norm_num) hp
  obtain ⟨c', hc'⟩ : ∃ c' : ℝ, c' = roundTo prec emin c := ⟨_, rfl⟩
  have hc0 : 0 ≤ c' := hc' ▸ roundTo_nonneg prec emin h0
  have hc1 : c' ≤ 1 := hc' ▸ roundTo_le_one hp1 he h0 h1
  obtain ⟨e', he'⟩ : ∃ e' : ℝ, e' = roundTo prec emin (1 - c') := ⟨_, rfl⟩
  have he0 : 0 ≤ e' := he' ▸ roundTo_nonneg prec emin (by linarith)
  have he1 : e' ≤ 1 := he' ▸ roundTo_le_one hp1 he (by linarith) (by linarith)
  have ha := abs_le.mp (@abs_roundTo_sub_le_unit ℝ _ _ 53 (-1074) (by norm_num) (by norm_num)
    c' hc0 hc1)
  have hb := abs_le.mp (@abs_roundTo_sub_le_unit ℝ _ _ 53 (-1074) (by norm_num) (by norm_num)
    e' he0 he1)
  have hm := abs_le.mp (@abs_roundTo_sub_le_unit ℝ _ _ prec emin hp1 he (1 - c')
    (by linarith) (by linarith))
  rw [← he'] at hm
  rw [← hc', ← he']
  have h53 : (2 : ℝ) ^ (-((53 : ℕ) : ℤ)) / 2 = 1 / 2 ^ 54 := by
    rw [two_zpow_neg_natCast]; norm_num
  have hprec : (2 : ℝ) ^ (-(prec : ℤ)) / 2 ≤ 1 / 2 ^ 54 := by
    rw [← h53]
    have : (2 : ℝ) ^ (-(prec : ℤ)) ≤ 2 ^ (-((53 : ℕ) : ℤ)) :=
      zpow_le_zpow_right₀ (by norm_num) (by push_cast; omega)
    exact div_le_div_of_nonneg_right this (by norm_num)
  rw [h53] at ha hb
  obtain ⟨u, hu⟩ : ∃ u : ℝ, u = 1 / 2 ^ 54 := ⟨_, rfl⟩
  have hu52 : (1 : ℝ) / 2 ^ 52 = 4 * u := by rw [hu]; norm_num
  rw [← hu] at ha hb hprec
  rw [hu52, abs_le]
  constructor <;> linarith [ha.1, ha.2, hb.1, hb.2, hm.1, hm.2]

lemma rounded_normcdf_some (prec : ℕ) (emin : ℤ) (m x : ℝ) {s : ℝ} (hs : 0 < s) :
    (roundedStats prec emin).normcdf m s x = some (roundTo prec emin (normalCDF m s x)) := by
  show (exactStats.normcdf m s x).map (roundTo prec emin) = _
  simp only [exactStats, if_pos hs, Option.map_some']

/-- C5. Normal complement: for every `X`, `m` and `s > 0` both functions evaluate the same
value `c = cdf(Normal(m, s), X)` and return `c` and `1 - c`.  In exact arithmetic `c` is a
probability and the two results add up to `1`; in the extended tier with rounding (334 bits, then
round to double) the two returned doubles add up to `1` within `2^-52`. -/
theorem normcdf_complement (X m s : ℝ) (hs : 0 < s) :
    (∃ c : ℝ, 0 ≤ c ∧ c ≤ 1 ∧ normcdf_100d exactStats X m s = some c ∧
      onemin_normcdf_100d exactStats X m s = some (1 - c) ∧ c + (1 - c) = 1) ∧
    (∃ a b : ℝ, normcdf_100d bin100 X m s = some a ∧
      onemin_normcdf_100d bin100 X m s = some b ∧ |a + b - 1| ≤ 1 / 2 ^ 52) := by
  constructor
  · refine ⟨normalCDF m s X, cdf_nonneg _ _, cdf_le_one _ _, ?_, ?_, by ring⟩
    · simp [normcdf_100d, exactStats, hs]
    · simp [onemin_normcdf_100d, exactStats, hs]
  · refine ⟨_, _, ?_, ?_, @rounded_complement_sum 334 (-2147483313) (by norm_num) (by norm_num)
      (normalCDF m s X) (cdf_nonneg _ _) (cdf_le_one _ _)⟩
    · show ((roundedStats 334 (-2147483313)).normcdf m s X).map (roundTo 53 (-1074)) = _
      rw [rounded_normcdf_some 334 (-2147483313) m X hs, Option.map_some']
    · show ((roundedStats 334 (-2147483313)).normcdf m s X).map
        (fun c => roundTo 53 (-1074) (roundTo 334 (-2147483313) (1 - c))) = _
      rw [rounded_normcdf_some 334 (-2147483313) m X hs, Option.map_some']

theorem normcdf_complement_witness :
    (0 : ℝ) < 1 ∧
    (∃ c : ℝ, 0 ≤ c ∧ c ≤ 1 ∧ normcdf_100d exactStats 2 0 1 = some c ∧
      onemin_normcdf_100d exactStats 2 0 1 = some (1 - c) ∧ c + (1 - c) = 1) ∧
    (∃ a b : ℝ, normcdf_100d bin100 2 0 1 = some a ∧
      onemin_normcdf_100d bin100 2 0 1 = some b ∧ |a + b - 1| ≤ 1 / 2 ^ 52) :=
  ⟨by norm_num, normcdf_complement 2 0 1 (by norm_num)⟩

end PascalX
